import Mathlib

/-!
Verification of the hillyard.com documentation scraper (Go).

The development shallowly embeds the program's pure core: the key-space
generators, the PDF-link extractor (a hand-specialized model of the Go
regexp `https?://[^\s"'<>]+?\.pdf(\?[^\s"'<>]*)?` under Go's
leftmost-first, lazy matching semantics), the URL-to-filename derivation
(a model of `net/url.Parse` restricted to absolute URLs whose scheme is
immediately followed by `://`, plus `path.Base`, `url.QueryUnescape` and
the sanitizing regex replacement), and the stateful cache / download
steps, with the filesystem modelled as an association list from paths to
string contents and the network as an explicit response-valued function.
Strings are treated at byte granularity via `List Char`, exact for the
ASCII data the program handles.
-/

set_option maxRecDepth 20000

namespace Hillyard

/-- The character class `[^\s"'<>]` of the link regex: Go's `\s` is
`[\t\n\f\r ]`, so a character is allowed in a URL match iff it is none of
those five whitespace characters and not `"`, `'`, `<`, `>`. -/
def allowedURLChar (c : Char) : Bool :=
  !(c == ' ' || c == '\t' || c == '\n' || c == '\x0c' || c == '\r' ||
    c == '"' || c == '\'' || c == '<' || c == '>')

/-- The literal `.pdf` that terminates the lazy body of the link regex. -/
def pdfLit : List Char := ['.', 'p', 'd', 'f']

/-- Whether `needle` is an initial segment of `l` (character-exact). -/
def startsWithList : List Char → List Char → Bool
  | [], _ => true
  | _ :: _, [] => false
  | a :: as, b :: bs => a == b && startsWithList as bs

/-- Whether `needle` occurs in `l` starting at index `i`. -/
def occursAt (needle l : List Char) (i : Nat) : Bool :=
  startsWithList needle (l.drop i)

/-- Whether `needle` occurs anywhere in `l` (model of Go
`strings.Contains` at byte granularity). -/
def containsSub (needle : List Char) : List Char → Bool
  | [] => needle.isEmpty
  | c :: rest => startsWithList needle (c :: rest) || containsSub needle rest

/-- Model of `strings.Contains hay needle`. -/
def containsSubstring (hay needle : String) : Bool :=
  containsSub needle.data hay.data

/-- ASCII model of `strings.ToLower` (exact on the ASCII data the
program handles). -/
def lowerString (s : String) : String :=
  String.mk (s.data.map Char.toLower)

/-- The lazy segment `[^\s"'<>]+?` of the link regex followed by the
literal `.pdf`: consume the least possible number (at least one) of
allowed characters such that `.pdf` follows, failing if a disallowed
character or the end of input is reached first.  Returns the consumed
body and the remainder (which starts with `.pdf`). -/
def lazyBody : List Char → Option (List Char × List Char)
  | [] => none
  | c :: rest =>
    if allowedURLChar c then
      if startsWithList pdfLit rest then some ([c], rest)
      else
        match lazyBody rest with
        | some (body, rem) => some (c :: body, rem)
        | none => none
    else none

/-- The optional query group `(\?[^\s"'<>]*)?`: if the input starts with
`?`, greedily take the maximal run of allowed characters after it;
otherwise match the empty string. Returns the matched query part and the
remainder. -/
def takeQuery : List Char → List Char × List Char
  | '?' :: rest => ('?' :: rest.takeWhile allowedURLChar, rest.dropWhile allowedURLChar)
  | l => ([], l)

/-- Continue a link-regex match after the scheme has been consumed:
lazy body, the literal `.pdf`, then the optional query group.  Returns
the full matched text and the unconsumed remainder. -/
def matchAfterScheme (scheme : List Char) (l : List Char) :
    Option (List Char × List Char) :=
  match lazyBody l with
  | none => none
  | some (body, rem) =>
    if startsWithList pdfLit rem then
      let q := takeQuery (rem.drop 4)
      some (scheme ++ body ++ pdfLit ++ q.1, q.2)
    else none

/-- The two possible schemes `https?://` can consume.  The `s` is
greedily optional: `https://` is preferred and the two alternatives can
never both apply (the character after `http` is `s` in one and `:` in
the other), so testing `https://` first is exact. -/
def httpsScheme : List Char := ['h', 't', 't', 'p', 's', ':', '/', '/']

/-- The scheme prefix without the optional `s`. -/
def httpScheme : List Char := ['h', 't', 't', 'p', ':', '/', '/']

/-- Try the link regex anchored at the head of `l`: the literal `http`,
a greedily optional `s`, the literal `://`, then body, `.pdf` and the
optional query. -/
def matchPdfAt (l : List Char) : Option (List Char × List Char) :=
  if startsWithList httpsScheme l then matchAfterScheme httpsScheme (l.drop 8)
  else if startsWithList httpScheme l then matchAfterScheme httpScheme (l.drop 7)
  else none

/-- Fueled scan implementing `FindAllString`: at each position try the
anchored match; on success emit it and resume after its end, otherwise
advance one character.  The fuel dominates the number of characters ever
inspected, so `fuel = l.length` is always sufficient. -/
def findAllPdfFuel : Nat → List Char → List (List Char)
  | 0, _ => []
  | fuel + 1, l =>
    match matchPdfAt l with
    | some (m, after) => m :: findAllPdfFuel fuel after
    | none =>
      match l with
      | [] => []
      | _ :: rest => findAllPdfFuel fuel rest

/-- Model of `pdfRegex.FindAllString(htmlContent, -1)`: all
non-overlapping, leftmost-first matches of the link regex. -/
def findAllPdf (l : List Char) : List (List Char) :=
  findAllPdfFuel l.length l

/-- First-seen-order deduplication: the common loop of
`extractPDFLinks` and `removeDuplicatesFromSlice`, which walks the input
keeping a `seen` set (always exactly the set of elements already
emitted) and appends each element not yet seen. -/
def dedupFirstSeen {α : Type} [DecidableEq α] (l : List α) : List α :=
  l.foldl (fun acc x => if x ∈ acc then acc else acc ++ [x]) []

/-- Model of `removeDuplicatesFromSlice` (main.go lines 169-179). -/
def removeDuplicatesFromSlice (slice : List String) : List String :=
  dedupFirstSeen slice

/-- The raw match sequence produced inside `extractPDFLinks` before its
dedup loop: lowercase the content, then find all regex matches. -/
def pdfMatches (htmlContent : String) : List String :=
  (findAllPdf (lowerString htmlContent).data).map (fun l => String.mk l)

/-- Model of `extractPDFLinks` (main.go lines 144-157): lowercase the
content, collect all regex matches, and deduplicate them in first-seen
order. -/
def extractPDFLinks (htmlContent : String) : List String :=
  dedupFirstSeen (pdfMatches htmlContent)

/-- Hexadecimal digit test, as Go `net/url`'s `ishex`. -/
def isHexDigit (c : Char) : Bool :=
  ('0' ≤ c && c ≤ '9') || ('a' ≤ c && c ≤ 'f') || ('A' ≤ c && c ≤ 'F')

/-- Value of a hexadecimal digit, as Go `net/url`'s `unhex`. -/
def hexDigitVal (c : Char) : Nat :=
  if '0' ≤ c && c ≤ '9' then c.toNat - '0'.toNat
  else if 'a' ≤ c && c ≤ 'f' then c.toNat - 'a'.toNat + 10
  else if 'A' ≤ c && c ≤ 'F' then c.toNat - 'A'.toNat + 10
  else 0

/-- Model of Go `net/url` percent-decoding (`unescape`): `%XY` with two
hex digits decodes to the byte `16*X+Y` (represented as the character of
that code point; exact for ASCII data), a malformed escape is an error
(`none`), and when `plusToSpace` is true (`QueryUnescape` mode) `+`
decodes to a space; in path mode `+` is kept verbatim. -/
def percentUnescape (plusToSpace : Bool) : List Char → Option (List Char)
  | [] => some []
  | '%' :: rest =>
    match rest with
    | h1 :: h2 :: rest2 =>
      if isHexDigit h1 && isHexDigit h2 then
        (percentUnescape plusToSpace rest2).map
          (fun d => Char.ofNat (16 * hexDigitVal h1 + hexDigitVal h2) :: d)
      else none
    | _ => none
  | '+' :: rest =>
    (percentUnescape plusToSpace rest).map
      (fun d => (if plusToSpace then ' ' else '+') :: d)
  | c :: rest => (percentUnescape plusToSpace rest).map (fun d => c :: d)

/-- Model of `url.QueryUnescape`. -/
def queryUnescape (s : List Char) : Option (List Char) :=
  percentUnescape true s

/-- Characters of `l` strictly before the first occurrence of `stop`. -/
def takeUntilChar (stop : Char) : List Char → List Char
  | [] => []
  | c :: rest => if c == stop then [] else c :: takeUntilChar stop rest

/-- Split an absolute URL at the first `://`: returns the scheme part
and the remainder after `://`, or `none` when no `://` occurs.  This
restricts the `url.Parse` model to absolute URLs whose scheme is
immediately followed by `://` (the only shape the program produces). -/
def splitSchemeRest : List Char → Option (List Char × List Char)
  | [] => none
  | ':' :: '/' :: '/' :: rest => some ([], rest)
  | c :: rest =>
    match splitSchemeRest rest with
    | some (sch, r) => some (c :: sch, r)
    | none => none

/-- The raw (still percent-encoded) path of the part following `://`:
skip the authority up to the first `/`, then take up to the query
delimiter `?`; a URL whose authority is directly followed by `?` or by
the end of input has an empty path. -/
def rawPathOf : List Char → List Char
  | [] => []
  | '?' :: _ => []
  | '/' :: rest => '/' :: takeUntilChar '?' rest
  | _ :: rest => rawPathOf rest

/-- Model of `url.Parse(rawURL).Path` for absolute `scheme://` URLs:
strip the fragment, locate the path inside the remainder after `://`,
and percent-decode it (Go stores the decoded form in `URL.Path` and
rejects the URL when an escape is malformed, hence the `Option`). -/
def urlParsePath (rawURL : String) : Option (List Char) :=
  match splitSchemeRest (takeUntilChar '#' rawURL.data) with
  | none => none
  | some (_, rest) => percentUnescape false (rawPathOf rest)

/-- Drop trailing `/` characters, as the first loop of `path.Base`. -/
def stripTrailingSlashes (l : List Char) : List Char :=
  (l.reverse.dropWhile (fun c => c == '/')).reverse

/-- The part of `l` after its last `/` (all of `l` when there is no
slash). -/
def afterLastSlash (l : List Char) : List Char :=
  (l.reverse.takeWhile (fun c => !(c == '/'))).reverse

/-- Model of Go `path.Base`: `.` for the empty path, strip trailing
slashes, keep the part after the last slash, and `/` when nothing
remains. -/
def pathBase (l : List Char) : List Char :=
  if l.isEmpty then ['.']
  else
    let s := stripTrailingSlashes l
    let b := afterLastSlash s
    if b.isEmpty then ['/'] else b

/-- The character class `[a-z0-9._-]` kept by the sanitizing regex of
`urlToSafeFilename`. -/
def safeFilenameChar (c : Char) : Bool :=
  ('a' ≤ c && c ≤ 'z') || ('0' ≤ c && c ≤ '9') || c == '.' || c == '_' || c == '-'

/-- Model of `re.ReplaceAllString(decoded, "_")` for the pattern
`[^a-z0-9._-]+`: every maximal run of disallowed characters collapses to
one underscore.  The Boolean flag records whether the scan is currently
inside a disallowed run whose underscore has already been emitted. -/
def sanitizeScan : Bool → List Char → List Char
  | _, [] => []
  | inRun, c :: rest =>
    if safeFilenameChar c then c :: sanitizeScan false rest
    else if inRun then sanitizeScan true rest
    else '_' :: sanitizeScan true rest

/-- The sanitizing replacement applied by `urlToSafeFilename`. -/
def replaceDisallowedRuns (l : List Char) : List Char :=
  sanitizeScan false l

/-- Model of `urlToSafeFilename` (main.go lines 79-93): parse the URL
(empty string on failure), take the base of its decoded path, decode it
again with `url.QueryUnescape` falling back to the undecoded segment on
error, lowercase, and replace every maximal run of characters outside
`[a-z0-9._-]` by `_`. -/
def urlToSafeFilename (rawURL : String) : String :=
  match urlParsePath rawURL with
  | none => ""
  | some p =>
    let base := pathBase p
    let decoded :=
      match queryUnescape base with
      | some d => d
      | none => base
    String.mk (replaceDisallowedRuns (decoded.map Char.toLower))

/-- The filesystem, modelled as an association list from paths to file
contents; a write shadows earlier entries for the same path. -/
abbrev FS := List (String × String)

/-- Model of `fileExists` (main.go lines 199-205): only files are ever
stored, so existence is a successful lookup. -/
def fileExists (fs : FS) (filename : String) : Bool :=
  (fs.lookup filename).isSome

/-- Store `content` at `path`, shadowing any earlier entry. -/
def fsWrite (fs : FS) (path content : String) : FS :=
  (path, content) :: fs

/-- Model of `readAFileAsString` (main.go lines 160-166): a read error
yields the empty string. -/
def readAFileAsString (fs : FS) (path : String) : String :=
  (fs.lookup path).getD ""

/-- Model of `appendAndWriteToFile` (main.go lines 208-221): open with
`O_APPEND|O_CREATE`, then write `content + "\n"`, so the file is created
when absent and appended to otherwise. -/
def appendAndWriteToFile (fs : FS) (path content : String) : FS :=
  match fs.lookup path with
  | some old => fsWrite fs path (old ++ content ++ "\n")
  | none => fsWrite fs path (content ++ "\n")

/-- The get-or-fetch step of the main loop (main.go lines 56-60) for one
key: compute `assets/<key>.json`; when it does not exist, call the
search endpoint (`search` abstracts `getAPIResultsWithTwoLetterCombo`)
and persist the body.  Returns the new filesystem and the number of
search fetches issued (0 or 1). -/
def getOrFetchStep (search : String → String) (key : String) (fs : FS) :
    FS × Nat :=
  let filePath := "assets/" ++ key ++ ".json"
  if fileExists fs filePath then (fs, 0)
  else (appendAndWriteToFile fs filePath (search key), 1)

/-- One HTTP GET outcome for the downloader: a transport error, or a
response with status code, `Content-Type` header, a flag for a body-read
(`io.Copy`) error, and the fully buffered body. -/
inductive NetResult where
  | transport : NetResult
  | resp (status : Nat) (contentType : String) (readErr : Bool) (body : String) : NetResult
deriving DecidableEq

/-- The outcome taxonomy of one `downloadPDF` call. -/
inductive DownloadOutcome where
  | skippedAlreadyExists : DownloadOutcome
  | failedTransport : DownloadOutcome
  | failedBadStatus : DownloadOutcome
  | failedWrongContentType : DownloadOutcome
  | failedBodyRead : DownloadOutcome
  | failedEmptyBody : DownloadOutcome
  | succeeded (bytesWritten : Nat) : DownloadOutcome
deriving DecidableEq

/-- Result of one `downloadPDF` call: its outcome, the filesystem
afterwards, and how many network calls it made (0 or 1). -/
structure DownloadResult where
  outcome : DownloadOutcome
  fs : FS
  netCalls : Nat
deriving DecidableEq

/-- Whether the last path element of `dir` ends in a slash. -/
def endsWithSlash (dir : String) : Bool :=
  dir.data.getLast? == some '/'

/-- Model of `filepath.Join dir name` for the shapes the program uses
(a directory with or without a trailing slash and a relative name):
concatenate with exactly one `/` between the parts. -/
def filepathJoin (dir name : String) : String :=
  if dir = "" then name
  else if endsWithSlash dir then dir ++ name
  else dir ++ "/" ++ name

/-- Model of `downloadPDF` (main.go lines 96-141): derive the safe
filename, skip when the destination exists, otherwise GET the URL and
validate transport, status, `Content-Type`, body read, and non-emptiness
before creating the file; only the final branch writes.  `net` abstracts
the HTTP client; file creation on the existing output directory is
modelled as succeeding. -/
def downloadPDF (net : String → NetResult) (finalURL outputDir : String)
    (fs : FS) : DownloadResult :=
  let filename := lowerString (urlToSafeFilename finalURL)
  let filePath := filepathJoin outputDir filename
  if fileExists fs filePath then ⟨.skippedAlreadyExists, fs, 0⟩
  else
    match net finalURL with
    | .transport => ⟨.failedTransport, fs, 1⟩
    | .resp status contentType readErr body =>
      if status ≠ 200 then ⟨.failedBadStatus, fs, 1⟩
      else if !containsSubstring contentType "application/pdf" then
        ⟨.failedWrongContentType, fs, 1⟩
      else if readErr then ⟨.failedBodyRead, fs, 1⟩
      else if body.length = 0 then ⟨.failedEmptyBody, fs, 1⟩
      else ⟨.succeeded body.length, fsWrite fs filePath body, 1⟩

/-- The validation verdict the claims associate with a given HTTP
result, in the order the code checks it: transport, status 200,
`Content-Type` containing `application/pdf`, body read, non-empty
body. -/
def expectedOutcome : NetResult → DownloadOutcome
  | .transport => .failedTransport
  | .resp status contentType readErr body =>
    if status ≠ 200 then .failedBadStatus
    else if !containsSubstring contentType "application/pdf" then
      .failedWrongContentType
    else if readErr then .failedBodyRead
    else if body.length = 0 then .failedEmptyBody
    else .succeeded body.length

/-- The failure outcomes that precede file creation. -/
def isPreCreateFailure : DownloadOutcome → Bool
  | .failedTransport => true
  | .failedBadStatus => true
  | .failedWrongContentType => true
  | .failedBodyRead => true
  | .failedEmptyBody => true
  | _ => false

/-- The 36-symbol alphabet of both pair generators. -/
def alphabet : String := "abcdefghijklmnopqrstuvwxyz0123456789"

/-- Model of `generateAllTwoLetterCombinations` (main.go lines 224-236):
two nested index loops over the byte length of the alphabet, each pair
built by concatenating two one-character strings. -/
def generateAllTwoLetterCombinations : List String :=
  (List.range alphabet.length).flatMap (fun i =>
    (List.range alphabet.length).map (fun j =>
      String.singleton (alphabet.data.getD i ' ') ++
        String.singleton (alphabet.data.getD j ' ')))

/-- Model of `generateTwoLetterCombinations` (second program variant,
main.go lines 489-510): two nested rune loops over the same alphabet,
each pair built as the string of the two runes. -/
def generateTwoLetterCombinations : List String :=
  alphabet.data.flatMap (fun a =>
    alphabet.data.map (fun b => String.mk [a, b]))

/-- Model of `combineMultipleSlices` (main.go lines 73-76). -/
def combineMultipleSlices (sliceOne sliceTwo : List String) : List String :=
  sliceOne ++ sliceTwo

/-- The single-character keys built by the two character loops of `main`
(main.go lines 35-47): digits `0`-`9` then letters `a`-`z`, each as a
one-character string. -/
def singleCharacterKeys : List String :=
  "0123456789".data.map (fun c => String.singleton c) ++
    "abcdefghijklmnopqrstuvwxyz".data.map (fun c => String.singleton c)

/-- The deduplicated key list `allowedCharacters` computed by `main`
(main.go lines 35-53). -/
def allowedCharactersList : List String :=
  removeDuplicatesFromSlice
    (combineMultipleSlices singleCharacterKeys generateAllTwoLetterCombinations)

/-- The filename derivation of claim C7 exactly as stated: same pipeline
as `urlToSafeFilename` but with each disallowed character replaced by
its own underscore. -/
def claimedFilenamePerChar (rawURL : String) : String :=
  match urlParsePath rawURL with
  | none => ""
  | some p =>
    let base := pathBase p
    let decoded :=
      match queryUnescape base with
      | some d => d
      | none => base
    String.mk ((decoded.map Char.toLower).map
      (fun c => if safeFilenameChar c then c else '_'))

/-- Amended sanitizer specification: decompose the input into maximal
runs of equal safety using `List.dropWhile`/`List.takeWhile`, keep the
safe runs, and emit one underscore per disallowed run. -/
def amendedSanitizeSpec : List Char → List Char
  | [] => []
  | c :: rest =>
    if safeFilenameChar c then
      (c :: rest).takeWhile safeFilenameChar ++
        amendedSanitizeSpec ((c :: rest).dropWhile safeFilenameChar)
    else
      '_' :: amendedSanitizeSpec
        ((c :: rest).dropWhile (fun d => !safeFilenameChar d))
termination_by l => l.length
decreasing_by
  · rename_i h
    rw [List.dropWhile_cons, if_pos h, List.length_cons]
    exact Nat.lt_succ_of_le (List.dropWhile_sublist _).length_le
  · rename_i h
    rw [List.dropWhile_cons, List.length_cons, if_pos (by simp [h])]
    exact Nat.lt_succ_of_le (List.dropWhile_sublist _).length_le

/-- The amended filename derivation of claim C7: same pipeline with the
run-based sanitizer. -/
def amendedFilenameSpec (rawURL : String) : String :=
  match urlParsePath rawURL with
  | none => ""
  | some p =>
    let base := pathBase p
    let decoded :=
      match queryUnescape base with
      | some d => d
      | none => base
    String.mk (amendedSanitizeSpec (decoded.map Char.toLower))

/-- A concrete well-behaved network: every GET answers 200 with an
`application/pdf` content type and the one-byte body `x`. -/
def pdfNet : String → NetResult :=
  fun _ => .resp 200 "application/pdf" false "x"

section DedupLemmas

variable {α : Type} [DecidableEq α]

/-- Structural companion of `dedupFirstSeen` that makes the `seen` set
an explicit parameter. -/
def dedupAux (seen : List α) : List α → List α
  | [] => []
  | x :: xs => if x ∈ seen then dedupAux seen xs else x :: dedupAux (seen ++ [x]) xs

lemma foldl_dedup_eq (l : List α) : ∀ acc : List α,
    l.foldl (fun acc x => if x ∈ acc then acc else acc ++ [x]) acc =
      acc ++ dedupAux acc l := by
  induction l with
  | nil => intro acc; simp [dedupAux]
  | cons x xs ih =>
    intro acc
    by_cases h : x ∈ acc
    · simp only [List.foldl_cons, if_pos h, dedupAux, ih acc]
    · simp only [List.foldl_cons, if_neg h, dedupAux, ih (acc ++ [x])]
      simp

lemma dedupFirstSeen_eq (l : List α) : dedupFirstSeen l = dedupAux [] l := by
  simpa [dedupFirstSeen] using foldl_dedup_eq l []

lemma mem_dedupAux {a : α} : ∀ (l seen : List α),
    a ∈ dedupAux seen l ↔ a ∈ l ∧ a ∉ seen := by
  intro l
  induction l with
  | nil => intro seen; simp [dedupAux]
  | cons x xs ih =>
    intro seen
    by_cases h : x ∈ seen
    · rw [dedupAux, if_pos h, ih]
      constructor
      · exact fun ⟨hxs, hns⟩ => ⟨List.mem_cons_of_mem x hxs, hns⟩
      · rintro ⟨hmem, hns⟩
        rcases List.mem_cons.mp hmem with rfl | hxs
        · exact absurd h hns
        · exact ⟨hxs, hns⟩
    · rw [dedupAux, if_neg h]
      simp only [List.mem_cons, ih, List.mem_append, List.mem_singleton]
      constructor
      · rintro (rfl | ⟨hxs, hnot⟩)
        · exact ⟨Or.inl rfl, h⟩
        · exact ⟨Or.inr hxs, fun hc => hnot (Or.inl hc)⟩
      · rintro ⟨rfl | hxs, hns⟩
        · exact Or.inl rfl
        · by_cases hax : a = x
          · exact Or.inl hax
          · refine Or.inr ⟨hxs, ?_⟩
            intro hc
            rcases hc with h1 | h2 | h3
            · exact hns h1
            · exact hax h2
            · simp at h3

lemma nodup_dedupAux : ∀ (l seen : List α), (dedupAux seen l).Nodup := by
  intro l
  induction l with
  | nil => intro seen; simp [dedupAux]
  | cons x xs ih =>
    intro seen
    by_cases h : x ∈ seen
    · rw [dedupAux, if_pos h]; exact ih seen
    · rw [dedupAux, if_neg h, List.nodup_cons]
      refine ⟨fun hx => ?_, ih _⟩
      have := (mem_dedupAux xs (seen ++ [x])).mp hx
      simp at this

lemma pairwise_idx_dedupAux : ∀ (l seen : List α),
    (dedupAux seen l).Pairwise (fun a b => l.indexOf a < l.indexOf b) := by
  intro l
  induction l with
  | nil => intro seen; simp [dedupAux]
  | cons x xs ih =>
    intro seen
    by_cases h : x ∈ seen
    · rw [dedupAux, if_pos h]
      refine (ih seen).imp_of_mem ?_
      intro a b ha hb hab
      have ha' := (mem_dedupAux xs seen).mp ha
      have hb' := (mem_dedupAux xs seen).mp hb
      have hax : x ≠ a := fun e => ha'.2 (e ▸ h)
      have hbx : x ≠ b := fun e => hb'.2 (e ▸ h)
      rw [List.indexOf_cons_ne _ hax, List.indexOf_cons_ne _ hbx]
      exact Nat.succ_lt_succ hab
    · rw [dedupAux, if_neg h, List.pairwise_cons]
      constructor
      · intro b hb
        have hb' := (mem_dedupAux xs (seen ++ [x])).mp hb
        have hbx : x ≠ b := by
          intro e
          exact hb'.2 (by simp [e])
        rw [List.indexOf_cons_self, List.indexOf_cons_ne _ hbx]
        exact Nat.succ_pos _
      · refine (ih (seen ++ [x])).imp_of_mem ?_
        intro a b ha hb hab
        have ha' := (mem_dedupAux xs (seen ++ [x])).mp ha
        have hb' := (mem_dedupAux xs (seen ++ [x])).mp hb
        have hax : x ≠ a := fun e => ha'.2 (by simp [e])
        have hbx : x ≠ b := fun e => hb'.2 (by simp [e])
        rw [List.indexOf_cons_ne _ hax, List.indexOf_cons_ne _ hbx]
        exact Nat.succ_lt_succ hab

lemma dedupAux_eq_self : ∀ (l seen : List α), l.Nodup → (∀ a ∈ l, a ∉ seen) →
    dedupAux seen l = l := by
  intro l
  induction l with
  | nil => intro seen _ _; rfl
  | cons x xs ih =>
    intro seen hnd hdisj
    rw [List.nodup_cons] at hnd
    rw [dedupAux, if_neg (hdisj x (List.mem_cons_self x xs))]
    congr 1
    refine ih _ hnd.2 ?_
    intro a ha
    simp only [List.mem_append, List.mem_singleton]
    rintro (hs | rfl)
    · exact hdisj a (List.mem_cons_of_mem x ha) hs
    · exact hnd.1 ha

lemma dedupFirstSeen_of_nodup {l : List α} (h : l.Nodup) : dedupFirstSeen l = l := by
  rw [dedupFirstSeen_eq]
  exact dedupAux_eq_self l [] h (by simp)

end DedupLemmas

section Generators

lemma map_getD_range (l : List Char) (d : Char) :
    (List.range l.length).map (fun i => l.getD i d) = l := by
  induction l with
  | nil => simp
  | cons c rest ih =>
    rw [List.length_cons, List.range_succ_eq_map, List.map_cons, List.map_map]
    have h2 : ((fun i => (c :: rest).getD i d) ∘ Nat.succ) =
        (fun i => rest.getD i d) := by
      funext i; rfl
    rw [h2, ih]
    rfl

lemma map_getD_range_comp {β : Type} (l : List Char) (d : Char) (F : Char → β) :
    (List.range l.length).map (fun i => F (l.getD i d)) = l.map F := by
  have h : (fun i => F (l.getD i d)) = F ∘ (fun i => l.getD i d) := rfl
  rw [h, ← List.map_map, map_getD_range]

lemma singleton_append_eq_mk (a b : Char) :
    String.singleton a ++ String.singleton b = String.mk [a, b] := rfl

lemma genAll_eq_genTwo :
    generateAllTwoLetterCombinations = generateTwoLetterCombinations := by
  rw [generateAllTwoLetterCombinations, generateTwoLetterCombinations]
  have hlen : alphabet.length = alphabet.data.length := rfl
  rw [hlen]
  have hinner : (fun i =>
      (List.range alphabet.data.length).map (fun j =>
        String.singleton (alphabet.data.getD i ' ') ++
          String.singleton (alphabet.data.getD j ' '))) =
      (fun i => alphabet.data.map
        (fun b => String.mk [alphabet.data.getD i ' ', b])) := by
    funext i
    have := map_getD_range_comp alphabet.data ' '
      (fun b => String.singleton (alphabet.data.getD i ' ') ++ String.singleton b)
    simpa [singleton_append_eq_mk] using this
  rw [hinner]
  rw [List.flatMap_def, map_getD_range_comp alphabet.data ' '
    (fun a => alphabet.data.map (fun b => String.mk [a, b])), ← List.flatMap_def]

lemma length_pairStrings (la lb : List Char) :
    (la.flatMap (fun a => lb.map (fun b => String.mk [a, b]))).length =
      la.length * lb.length := by
  induction la with
  | nil => simp
  | cons a as ih =>
    rw [List.flatMap_cons, List.length_append, List.length_map, ih,
      List.length_cons, Nat.succ_mul, Nat.add_comm]

lemma genTwo_length : generateTwoLetterCombinations.length = 1296 := by
  rw [generateTwoLetterCombinations, length_pairStrings]
  rfl

lemma genAll_length : generateAllTwoLetterCombinations.length = 1296 := by
  rw [genAll_eq_genTwo]; exact genTwo_length

lemma nodup_pairStrings (la lb : List Char) (ha : la.Nodup) (hb : lb.Nodup) :
    (la.flatMap (fun a => lb.map (fun b => String.mk [a, b]))).Nodup := by
  induction la with
  | nil => simp
  | cons a as ih =>
    rw [List.nodup_cons] at ha
    rw [List.flatMap_cons]
    refine List.Nodup.append ?_ (ih ha.2) ?_
    · refine hb.map ?_
      intro b b' hbb
      have h2 : ([a, b] : List Char) = [a, b'] := congrArg String.data hbb
      simpa using h2
    · intro s hs hs'
      simp only [List.mem_map] at hs
      obtain ⟨b, _, rfl⟩ := hs
      simp only [List.mem_flatMap, List.mem_map] at hs'
      obtain ⟨a', ha', b', _, heq⟩ := hs'
      injection heq with h2
      injection h2 with hfst _
      exact ha.1 (hfst ▸ ha')

lemma pairs_nodup : generateAllTwoLetterCombinations.Nodup := by
  rw [genAll_eq_genTwo, generateTwoLetterCombinations]
  exact nodup_pairStrings alphabet.data alphabet.data (by decide) (by decide)

lemma singles_nodup : singleCharacterKeys.Nodup := by decide

lemma singles_length_one : ∀ s ∈ singleCharacterKeys, s.data.length = 1 := by decide

lemma pairs_length_two : ∀ p ∈ generateAllTwoLetterCombinations, p.data.length = 2 := by
  rw [genAll_eq_genTwo]
  intro p hp
  simp only [generateTwoLetterCombinations, List.mem_flatMap, List.mem_map] at hp
  obtain ⟨a, _, b, _, rfl⟩ := hp
  rfl

lemma singles_pairs_ne :
    ∀ s ∈ singleCharacterKeys, ∀ p ∈ generateAllTwoLetterCombinations, s ≠ p := by
  intro s hs p hp heq
  have h1 := singles_length_one s hs
  have h2 := pairs_length_two p hp
  rw [heq, h2] at h1
  exact absurd h1 (by decide)

lemma combined_nodup :
    (combineMultipleSlices singleCharacterKeys generateAllTwoLetterCombinations).Nodup := by
  refine List.Nodup.append singles_nodup pairs_nodup ?_
  intro s hs hp
  exact singles_pairs_ne s hs s hp rfl

lemma allowedCharacters_eq :
    allowedCharactersList =
      combineMultipleSlices singleCharacterKeys generateAllTwoLetterCombinations := by
  rw [allowedCharactersList, removeDuplicatesFromSlice]
  exact dedupFirstSeen_of_nodup combined_nodup

end Generators

/-- C10: the two pair-generation variants, `generateAllTwoLetterCombinations`
(byte-indexed loops) and `generateTwoLetterCombinations` (rune loops), are
extensionally equal: they return the same list of 1296 two-character strings
over `abcdefghijklmnopqrstuvwxyz0123456789` in the same nested-loop order. -/
theorem generators_extensionally_equal :
    generateAllTwoLetterCombinations = generateTwoLetterCombinations ∧
    generateAllTwoLetterCombinations.length = 1296 :=
  ⟨genAll_eq_genTwo, genAll_length⟩

/-- C4: the exhaustive enumeration builds exactly the 36 single-character
keys (digits `0`-`9` then letters `a`-`z`) plus 1296 two-character keys,
1332 keys before deduplication; deduplication keeps all 1332 distinct keys
because no single-character key equals a two-character key. -/
theorem keyspace_counts (s p : String)
    (hs : s ∈ singleCharacterKeys) (hp : p ∈ generateAllTwoLetterCombinations) :
    singleCharacterKeys =
      ["0", "1", "2", "3", "4", "5", "6", "7", "8", "9",
       "a", "b", "c", "d", "e", "f", "g", "h", "i", "j", "k", "l", "m",
       "n", "o", "p", "q", "r", "s", "t", "u", "v", "w", "x", "y", "z"] ∧
    singleCharacterKeys.length = 36 ∧
    generateAllTwoLetterCombinations.length = 1296 ∧
    (combineMultipleSlices singleCharacterKeys
        generateAllTwoLetterCombinations).length = 1332 ∧
    allowedCharactersList.length = 1332 ∧
    allowedCharactersList.Nodup ∧
    s ≠ p := by
  refine ⟨by decide, by decide, genAll_length, ?_, ?_, ?_, singles_pairs_ne s hs p hp⟩
  · rw [combineMultipleSlices, List.length_append, genAll_length]; rfl
  · rw [allowedCharacters_eq, combineMultipleSlices, List.length_append, genAll_length]; rfl
  · rw [allowedCharacters_eq]; exact combined_nodup

/-- Witness for C4 at the concrete keys `0` and `aa`. -/
theorem keyspace_counts_witness :
    ("0" : String) ∈ singleCharacterKeys ∧
    ("aa" : String) ∈ generateAllTwoLetterCombinations ∧
    ("0" : String) ≠ "aa" := by
  refine ⟨by decide, by decide, ?_⟩
  exact (keyspace_counts "0" "aa" (by decide) (by decide)).2.2.2.2.2.2

/-- C5: for every response body, `extractPDFLinks` returns a list with no
duplicates whose elements are exactly the regex matches, ordered by the
index of each match's first occurrence in the raw match sequence. -/
theorem extractPDFLinks_nodup_firstSeen (B : String) :
    (extractPDFLinks B).Nodup ∧
    (∀ u, u ∈ extractPDFLinks B ↔ u ∈ pdfMatches B) ∧
    (extractPDFLinks B).Pairwise
      (fun a b => (pdfMatches B).indexOf a < (pdfMatches B).indexOf b) := by
  rw [extractPDFLinks, dedupFirstSeen_eq]
  refine ⟨nodup_dedupAux _ _, fun u => ?_, pairwise_idx_dedupAux _ _⟩
  rw [mem_dedupAux]
  simp

section CacheLemmas

lemma lookup_fsWrite_self (fs : FS) (p v : String) :
    (fsWrite fs p v).lookup p = some v := by
  simp [fsWrite, List.lookup]

lemma fileExists_appendAndWrite (fs : FS) (p c : String) :
    fileExists (appendAndWriteToFile fs p c) p = true := by
  unfold appendAndWriteToFile
  cases h : fs.lookup p <;> simp [fileExists, h, lookup_fsWrite_self]

lemma lookup_of_fileExists_false {fs : FS} {p : String}
    (h : fileExists fs p = false) : fs.lookup p = none := by
  unfold fileExists at h
  cases hl : fs.lookup p
  · rfl
  · rw [hl] at h; simp at h

end CacheLemmas

/-- C1: running the get-or-fetch step for a key twice in sequence issues
at most one search fetch in total; the second run leaves the filesystem
unchanged and fetches nothing (it sees the cache file existing, whatever
its content), so the cached content it reads is byte-identical to the
content read after the first run. -/
theorem getOrFetch_twice (search1 search2 : String → String) (key : String) (fs : FS) :
    (getOrFetchStep search1 key fs).2 +
        (getOrFetchStep search2 key (getOrFetchStep search1 key fs).1).2 ≤ 1 ∧
    getOrFetchStep search2 key (getOrFetchStep search1 key fs).1 =
        ((getOrFetchStep search1 key fs).1, 0) ∧
    readAFileAsString (getOrFetchStep search2 key (getOrFetchStep search1 key fs).1).1
        ("assets/" ++ key ++ ".json") =
      readAFileAsString (getOrFetchStep search1 key fs).1
        ("assets/" ++ key ++ ".json") := by
  by_cases h : fileExists fs ("assets/" ++ key ++ ".json") = true
  · simp [getOrFetchStep, h]
  · have h' : fileExists fs ("assets/" ++ key ++ ".json") = false := by
      simpa using h
    simp [getOrFetchStep, h', fileExists_appendAndWrite]

/-- C9: when the cache file for a key is absent and the step fetches the
body `search key`, the cache file afterwards contains exactly that body
followed by a single trailing newline. -/
theorem cacheFile_content_after_fetch (search : String → String) (key : String)
    (fs : FS) (h : fileExists fs ("assets/" ++ key ++ ".json") = false) :
    ((getOrFetchStep search key fs).1).lookup ("assets/" ++ key ++ ".json") =
      some (search key ++ "\n") := by
  have hl := lookup_of_fileExists_false h
  simp [getOrFetchStep, h, appendAndWriteToFile, hl, lookup_fsWrite_self]

/-- Witness for C9 at the key `q` on the empty store with a constant
search endpoint. -/
theorem cacheFile_content_after_fetch_witness :
    fileExists [] ("assets/" ++ "q" ++ ".json") = false ∧
    ((getOrFetchStep (fun _ => "data") "q" []).1).lookup
        ("assets/" ++ "q" ++ ".json") = some ("data" ++ "\n") :=
  ⟨rfl, cacheFile_content_after_fetch (fun _ => "data") "q" [] rfl⟩

section DownloadLemmas

lemma fileExists_fsWrite_self (fs : FS) (p v : String) :
    fileExists (fsWrite fs p v) p = true := by
  simp [fileExists, lookup_fsWrite_self]

lemma downloadPDF_succeeded_exists (net : String → NetResult) (U dir : String)
    (fs : FS) (n : Nat)
    (h : (downloadPDF net U dir fs).outcome = .succeeded n) :
    fileExists (downloadPDF net U dir fs).fs
      (filepathJoin dir (lowerString (urlToSafeFilename U))) = true := by
  unfold downloadPDF at h ⊢
  by_cases hex : fileExists fs (filepathJoin dir (lowerString (urlToSafeFilename U))) = true
  · simp [hex] at h
  · have hex' : fileExists fs (filepathJoin dir (lowerString (urlToSafeFilename U))) = false := by
      simpa using hex
    simp only [hex', Bool.false_eq_true, if_false] at h ⊢
    cases hnet : net U with
    | transport => rw [hnet] at h; simp at h
    | resp status contentType readErr body =>
      rw [hnet] at h
      dsimp only at h ⊢
      split_ifs at h ⊢ <;> simp_all [fileExists_fsWrite_self]

end DownloadLemmas

/-- C2: if a `downloadPDF` call succeeded (creating the file under the
URL's derived filename), then a second call for the same URL and
directory on the resulting filesystem returns Skipped(AlreadyExists),
performs no network call, and leaves the filesystem untouched. -/
theorem downloadPDF_second_skips (net1 net2 : String → NetResult)
    (U dir : String) (fs : FS) (n : Nat)
    (h : (downloadPDF net1 U dir fs).outcome = .succeeded n) :
    downloadPDF net2 U dir (downloadPDF net1 U dir fs).fs =
      ⟨.skippedAlreadyExists, (downloadPDF net1 U dir fs).fs, 0⟩ := by
  have hex := downloadPDF_succeeded_exists net1 U dir fs n h
  generalize hfs : (downloadPDF net1 U dir fs).fs = fs1 at hex ⊢
  unfold downloadPDF
  simp [hex]

/-- Witness for C2: a concrete successful download followed by a skip. -/
theorem downloadPDF_second_skips_witness :
    (downloadPDF pdfNet "https://example.com/a.pdf" "PDFs/" []).outcome =
        .succeeded 1 ∧
    downloadPDF pdfNet "https://example.com/a.pdf" "PDFs/"
        (downloadPDF pdfNet "https://example.com/a.pdf" "PDFs/" []).fs =
      ⟨.skippedAlreadyExists,
        (downloadPDF pdfNet "https://example.com/a.pdf" "PDFs/" []).fs, 0⟩ :=
  ⟨by decide,
    downloadPDF_second_skips pdfNet pdfNet "https://example.com/a.pdf" "PDFs/" [] 1
      (by decide)⟩

/-- C3: whenever a `downloadPDF` call ends in one of the validation
failures that precede file creation (transport error, non-200 status,
content type not containing `application/pdf`, body-read error, or empty
buffered body), the call returns exactly the failure outcome the checks
dictate for the network result, makes the one network call, and leaves
the filesystem unchanged. -/
theorem downloadPDF_failure_leaves_fs (net : String → NetResult)
    (U dir : String) (fs : FS)
    (hfail : isPreCreateFailure (downloadPDF net U dir fs).outcome = true) :
    downloadPDF net U dir fs = ⟨expectedOutcome (net U), fs, 1⟩ := by
  unfold downloadPDF at hfail ⊢
  by_cases hex : fileExists fs (filepathJoin dir (lowerString (urlToSafeFilename U))) = true
  · rw [if_pos hex] at hfail
    simp [isPreCreateFailure] at hfail
  · have hex' : fileExists fs (filepathJoin dir (lowerString (urlToSafeFilename U))) = false := by
      simpa using hex
    simp only [hex', Bool.false_eq_true, if_false] at hfail ⊢
    cases hnet : net U with
    | transport => rw [hnet] at hfail; simp [expectedOutcome]
    | resp status contentType readErr body =>
      rw [hnet] at hfail
      dsimp only at hfail ⊢
      simp only [expectedOutcome]
      split_ifs at hfail ⊢ <;> simp_all [isPreCreateFailure]

/-- Witness for C3: a concrete transport failure leaves the empty store
unchanged. -/
theorem downloadPDF_failure_leaves_fs_witness :
    isPreCreateFailure
        (downloadPDF (fun _ => .transport) "https://example.com/a.pdf" "PDFs/" []).outcome = true ∧
    downloadPDF (fun _ => .transport) "https://example.com/a.pdf" "PDFs/" [] =
      ⟨expectedOutcome ((fun _ => NetResult.transport) "https://example.com/a.pdf"), [], 1⟩ :=
  ⟨by decide,
    downloadPDF_failure_leaves_fs (fun _ => .transport)
      "https://example.com/a.pdf" "PDFs/" [] (by decide)⟩

section LazyMatchLemmas

lemma startsWithList_append {needle : List Char} : ∀ {l : List Char} (r : List Char),
    startsWithList needle l = true → startsWithList needle (l ++ r) = true := by
  induction needle with
  | nil => intro l r _; rfl
  | cons a as ih =>
    intro l r h
    cases l with
    | nil => simp [startsWithList] at h
    | cons b bs =>
      rw [List.cons_append]
      rw [startsWithList] at h ⊢
      rw [Bool.and_eq_true] at h ⊢
      exact ⟨h.1, ih r h.2⟩

lemma lazyBody_spec : ∀ (l body rem : List Char), lazyBody l = some (body, rem) →
    body ≠ [] ∧ body.all allowedURLChar = true ∧ l = body ++ rem ∧
    startsWithList pdfLit rem = true ∧
    (∀ i, occursAt pdfLit body i = true → i = 0) := by
  intro l
  induction l with
  | nil => intro body rem h; simp [lazyBody] at h
  | cons c rest ih =>
    intro body rem h
    rw [lazyBody] at h
    by_cases hc : allowedURLChar c = true
    case neg => rw [if_neg hc] at h; cases h
    rw [if_pos hc] at h
    by_cases hp : startsWithList pdfLit rest = true
    · rw [if_pos hp] at h
      injection h with h'
      injection h' with hbody hrem
      subst hbody; subst hrem
      refine ⟨by simp, by simp [hc], rfl, hp, ?_⟩
      intro i hi
      cases i with
      | zero => rfl
      | succ j =>
        exfalso
        simp only [occursAt] at hi
        have hdrop : List.drop (j + 1) [c] = [] := by simp
        rw [hdrop] at hi
        simp [pdfLit, startsWithList] at hi
    · rw [if_neg hp] at h
      cases hlb : lazyBody rest with
      | none => rw [hlb] at h; cases h
      | some pr =>
        obtain ⟨body', rem'⟩ := pr
        rw [hlb] at h
        injection h with h'
        injection h' with hbody hrem
        subst hbody; subst hrem
        obtain ⟨hne, hall, happ, hpdf, hocc⟩ := ih body' rem' hlb
        refine ⟨by simp, ?_, by rw [List.cons_append, ← happ], hpdf, ?_⟩
        · rw [List.all_cons, Bool.and_eq_true]
          exact ⟨hc, hall⟩
        · intro i hi
          cases i with
          | zero => rfl
          | succ j =>
            exfalso
            simp only [occursAt, List.drop_succ_cons] at hi
            have hj := hocc j hi
            subst hj
            simp only [occursAt, List.drop_zero] at hi
            have : startsWithList pdfLit rest = true := by
              rw [happ]
              exact startsWithList_append rem' hi
            exact hp this

lemma takeQuery_split (l : List Char) :
    takeQuery l = ((takeQuery l).1, (takeQuery l).2) ∧
    l = (takeQuery l).1 ++ (takeQuery l).2 ∧
    ((takeQuery l).1 = [] ∨ ∃ qs, (takeQuery l).1 = '?' :: qs) := by
  refine ⟨rfl, ?_, ?_⟩
  · cases l with
    | nil => rfl
    | cons c rest =>
      by_cases hq : c = '?'
      · subst hq
        rw [takeQuery, List.cons_append, List.takeWhile_append_dropWhile]
      · rw [takeQuery]
        · rfl
        · intro rest2 h
          injection h with h1
          exact absurd h1 hq
  · cases l with
    | nil => exact Or.inl rfl
    | cons c rest =>
      by_cases hq : c = '?'
      · subst hq
        exact Or.inr ⟨rest.takeWhile allowedURLChar, rfl⟩
      · rw [takeQuery]
        · exact Or.inl rfl
        · intro rest2 h
          injection h with h1
          exact absurd h1 hq

lemma matchAfterScheme_spec (scheme l m after : List Char)
    (h : matchAfterScheme scheme l = some (m, after)) :
    ∃ body q, m = scheme ++ body ++ pdfLit ++ q ∧ body ≠ [] ∧
      body.all allowedURLChar = true ∧
      (∀ i, occursAt pdfLit body i = true → i = 0) ∧
      (q = [] ∨ ∃ qs, q = '?' :: qs) := by
  rw [matchAfterScheme] at h
  cases hlb : lazyBody l with
  | none => rw [hlb] at h; simp at h
  | some pr =>
    obtain ⟨body, rem⟩ := pr
    rw [hlb] at h
    dsimp only at h
    obtain ⟨hne, hall, happ, hpdf, hocc⟩ := lazyBody_spec l body rem hlb
    rw [if_pos hpdf] at h
    injection h with h'
    injection h' with hm hafter
    exact ⟨body, (takeQuery (rem.drop 4)).1, hm.symm, hne, hall, hocc,
      (takeQuery_split (rem.drop 4)).2.2⟩

lemma matchPdfAt_spec (l m after : List Char)
    (h : matchPdfAt l = some (m, after)) :
    ∃ scheme body q, (scheme = httpScheme ∨ scheme = httpsScheme) ∧
      m = scheme ++ body ++ pdfLit ++ q ∧ body ≠ [] ∧
      body.all allowedURLChar = true ∧
      (∀ i, occursAt pdfLit body i = true → i = 0) ∧
      (q = [] ∨ ∃ qs, q = '?' :: qs) := by
  rw [matchPdfAt] at h
  by_cases h8 : startsWithList httpsScheme l = true
  · rw [if_pos h8] at h
    obtain ⟨body, q, hm, hne, hall, hocc, hq⟩ :=
      matchAfterScheme_spec httpsScheme (l.drop 8) m after h
    exact ⟨httpsScheme, body, q, Or.inr rfl, hm, hne, hall, hocc, hq⟩
  · rw [if_neg h8] at h
    by_cases h7 : startsWithList httpScheme l = true
    · rw [if_pos h7] at h
      obtain ⟨body, q, hm, hne, hall, hocc, hq⟩ :=
        matchAfterScheme_spec httpScheme (l.drop 7) m after h
      exact ⟨httpScheme, body, q, Or.inl rfl, hm, hne, hall, hocc, hq⟩
    · rw [if_neg h7] at h
      cases h

lemma mem_findAllPdfFuel : ∀ (fuel : Nat) (l lm : List Char),
    lm ∈ findAllPdfFuel fuel l →
    ∃ l0 after, matchPdfAt l0 = some (lm, after) := by
  intro fuel
  induction fuel with
  | zero => intro l lm h; simp [findAllPdfFuel] at h
  | succ f ih =>
    intro l lm h
    simp only [findAllPdfFuel] at h
    cases hm : matchPdfAt l with
    | some pr =>
      obtain ⟨m, after⟩ := pr
      rw [hm] at h
      rcases List.mem_cons.mp h with rfl | h'
      · exact ⟨l, after, hm⟩
      · exact ih after lm h'
    | none =>
      rw [hm] at h
      cases l with
      | nil => simp at h
      | cons c rest => exact ih rest lm h

end LazyMatchLemmas

/-- C6 (amended): every link returned by `extractPDFLinks` decomposes as
`scheme ++ body ++ ".pdf" ++ query` with a non-empty body of allowed
characters in which `.pdf` occurs at no offset other than possibly 0, so
the scheme-and-path portion ends at the first occurrence of `.pdf` that
starts at least one character after `://`; a second `.pdf` can appear
only as the first four body characters, when `.pdf` directly follows
`://`. -/
theorem extract_matches_lazily (B m : String) (hm : m ∈ extractPDFLinks B) :
    ∃ scheme body q, (scheme = httpScheme ∨ scheme = httpsScheme) ∧
      m.data = scheme ++ body ++ pdfLit ++ q ∧ body ≠ [] ∧
      body.all allowedURLChar = true ∧
      (∀ i, occursAt pdfLit body i = true → i = 0) ∧
      (q = [] ∨ ∃ qs, q = '?' :: qs) := by
  have hm' : m ∈ pdfMatches B := by
    rw [extractPDFLinks, dedupFirstSeen_eq] at hm
    exact ((mem_dedupAux _ _).mp hm).1
  rw [pdfMatches, List.mem_map] at hm'
  obtain ⟨lm, hlm, rfl⟩ := hm'
  obtain ⟨l0, after, hmat⟩ := mem_findAllPdfFuel _ _ _ hlm
  exact matchPdfAt_spec l0 lm after hmat

/-- Witness for C6 (amended) at a concrete body and match. -/
theorem extract_matches_lazily_witness :
    ("https://a.pdf" : String) ∈ extractPDFLinks "see https://a.pdf here" ∧
    (∃ scheme body q,
      (scheme = httpScheme ∨ scheme = httpsScheme) ∧
      ("https://a.pdf" : String).data = scheme ++ body ++ pdfLit ++ q ∧
      body ≠ [] ∧ body.all allowedURLChar = true ∧
      (∀ i, occursAt pdfLit body i = true → i = 0) ∧
      (q = [] ∨ ∃ qs, q = '?' :: qs)) :=
  ⟨by decide, extract_matches_lazily "see https://a.pdf here" "https://a.pdf" (by decide)⟩

/-- C6 counterexample: on the body `https://.pdf.pdf` the extractor
returns the match `https://.pdf.pdf`, which has no query part and whose
scheme-and-path portion contains `.pdf` at the two offsets 8 and 12 —
a returned match with a second `.pdf` in its scheme-and-path portion,
contradicting the claim as stated. -/
theorem extract_second_pdf_counterexample :
    extractPDFLinks "https://.pdf.pdf" = ["https://.pdf.pdf"] ∧
    ("https://.pdf.pdf" : String).data.contains '?' = false ∧
    occursAt pdfLit ("https://.pdf.pdf" : String).data 8 = true ∧
    occursAt pdfLit ("https://.pdf.pdf" : String).data 12 = true := by
  decide

section SanitizeLemmas

lemma scan_safe_run : ∀ (l r : List Char), l.all safeFilenameChar = true →
    sanitizeScan false (l ++ r) = l ++ sanitizeScan false r := by
  intro l
  induction l with
  | nil => intro r _; rfl
  | cons c cs ih =>
    intro r hall
    rw [List.all_cons, Bool.and_eq_true] at hall
    rw [List.cons_append, sanitizeScan, if_pos hall.1, ih r hall.2, List.cons_append]

lemma scan_true_drop : ∀ (l : List Char),
    sanitizeScan true l = sanitizeScan false (l.dropWhile (fun d => !safeFilenameChar d)) := by
  intro l
  induction l with
  | nil => rfl
  | cons c rest ih =>
    by_cases hc : safeFilenameChar c = true
    · have hdrop : (c :: rest).dropWhile (fun d => !safeFilenameChar d) = c :: rest := by
        rw [List.dropWhile_cons, if_neg (by simp [hc])]
      rw [hdrop, sanitizeScan, if_pos hc, sanitizeScan, if_pos hc]
    · have hdrop : (c :: rest).dropWhile (fun d => !safeFilenameChar d) =
          rest.dropWhile (fun d => !safeFilenameChar d) := by
        rw [List.dropWhile_cons, if_pos (by simp [hc])]
      rw [hdrop, sanitizeScan, if_neg hc, if_pos rfl, ih]

lemma all_takeWhile (p : Char → Bool) : ∀ (l : List Char),
    (l.takeWhile p).all p = true := by
  intro l
  induction l with
  | nil => rfl
  | cons c rest ih =>
    by_cases hc : p c = true
    · rw [List.takeWhile_cons, if_pos hc, List.all_cons, Bool.and_eq_true]
      exact ⟨hc, ih⟩
    · rw [List.takeWhile_cons, if_neg hc]
      rfl

lemma sanitizeScan_eq_spec : ∀ (n : Nat) (l : List Char), l.length ≤ n →
    sanitizeScan false l = amendedSanitizeSpec l := by
  intro n
  induction n with
  | zero =>
    intro l hl
    have : l = [] := List.eq_nil_of_length_eq_zero (Nat.le_zero.mp hl)
    subst this
    rw [amendedSanitizeSpec]
    rfl
  | succ n ih =>
    intro l hl
    cases l with
    | nil => rw [amendedSanitizeSpec]; rfl
    | cons c rest =>
      rw [List.length_cons, Nat.succ_le_succ_iff] at hl
      by_cases hc : safeFilenameChar c = true
      · have hdrop : (c :: rest).dropWhile safeFilenameChar =
            rest.dropWhile safeFilenameChar := by
          rw [List.dropWhile_cons, if_pos hc]
        have hlen : ((c :: rest).dropWhile safeFilenameChar).length ≤ n := by
          rw [hdrop]
          exact Nat.le_trans (List.dropWhile_sublist _).length_le hl
        rw [amendedSanitizeSpec, if_pos hc]
        conv_lhs => rw [← List.takeWhile_append_dropWhile
          (p := safeFilenameChar) (l := c :: rest)]
        rw [scan_safe_run _ _ (all_takeWhile safeFilenameChar (c :: rest)),
          ih _ hlen]
      · have hdrop : (c :: rest).dropWhile (fun d => !safeFilenameChar d) =
            rest.dropWhile (fun d => !safeFilenameChar d) := by
          rw [List.dropWhile_cons, if_pos (by simp [hc])]
        have hlen : (rest.dropWhile (fun d => !safeFilenameChar d)).length ≤ n :=
          Nat.le_trans (List.dropWhile_sublist _).length_le hl
        rw [amendedSanitizeSpec, if_neg hc, hdrop, sanitizeScan, if_neg hc,
          if_neg (by simp), scan_true_drop, ih _ hlen]

lemma sanitizeScan_eq_spec_all (l : List Char) :
    sanitizeScan false l = amendedSanitizeSpec l :=
  sanitizeScan_eq_spec l.length l (Nat.le_refl _)

end SanitizeLemmas

/-- C7 (amended): for every URL that parses successfully, the derived
filename equals the result of taking the final segment of the URL's
path, percent-decoding it (falling back to the undecoded segment when
decoding fails), lowercasing it, and replacing every maximal run of
consecutive characters outside `[a-z0-9._-]` with a single underscore. -/
theorem urlToSafeFilename_amended (rawURL : String)
    (h : (urlParsePath rawURL).isSome = true) :
    urlToSafeFilename rawURL = amendedFilenameSpec rawURL := by
  rw [urlToSafeFilename, amendedFilenameSpec]
  cases hp : urlParsePath rawURL with
  | none => simp [hp] at h
  | some p =>
    dsimp only
    rw [replaceDisallowedRuns]
    rw [sanitizeScan_eq_spec_all]

/-- Witness for C7 (amended) at a concrete URL. -/
theorem urlToSafeFilename_amended_witness :
    (urlParsePath "https://example.com/Doc%20One.pdf").isSome = true ∧
    urlToSafeFilename "https://example.com/Doc%20One.pdf" =
      amendedFilenameSpec "https://example.com/Doc%20One.pdf" :=
  ⟨by decide, urlToSafeFilename_amended "https://example.com/Doc%20One.pdf" (by decide)⟩

/-- C7 counterexample: for the URL `https://example.com/a%20%20b.pdf`
(two consecutive percent-encoded spaces in the last path segment) the
code derives `a_b.pdf` — the whole disallowed run collapses to one
underscore — while the claim's per-character replacement would give
`a__b.pdf`, so the claim as stated is false. -/
theorem urlToSafeFilename_perChar_counterexample :
    urlToSafeFilename "https://example.com/a%20%20b.pdf" = "a_b.pdf" ∧
    claimedFilenamePerChar "https://example.com/a%20%20b.pdf" = "a__b.pdf" ∧
    urlToSafeFilename "https://example.com/a%20%20b.pdf" ≠
      claimedFilenamePerChar "https://example.com/a%20%20b.pdf" := by
  decide

/-- C8: on the documented example body the extractor returns exactly the
two case-normalized links in order; both derive the same filename
`sheet_one.pdf`; and after the first link downloads successfully into an
empty store, downloading the second link is skipped as already existing. -/
theorem collision_example :
    extractPDFLinks
        "see https://example.com/Sheet%20One.PDF?v=2 and HTTPS://EXAMPLE.com/sheet_one.pdf" =
      ["https://example.com/sheet%20one.pdf?v=2",
       "https://example.com/sheet_one.pdf"] ∧
    urlToSafeFilename "https://example.com/sheet%20one.pdf?v=2" = "sheet_one.pdf" ∧
    urlToSafeFilename "https://example.com/sheet_one.pdf" = "sheet_one.pdf" ∧
    (downloadPDF pdfNet "https://example.com/sheet%20one.pdf?v=2" "PDFs/" []).outcome =
      .succeeded 1 ∧
    downloadPDF pdfNet "https://example.com/sheet_one.pdf" "PDFs/"
        (downloadPDF pdfNet "https://example.com/sheet%20one.pdf?v=2" "PDFs/" []).fs =
      ⟨.skippedAlreadyExists,
        (downloadPDF pdfNet "https://example.com/sheet%20one.pdf?v=2" "PDFs/" []).fs,
        0⟩ := by
  decide

end Hillyard
